import Mathlib

/-!
Verification of the zenith-plugins content core.

A shallow embedding, in Lean 4, of the algorithmic core of the
`zenith-plugins` content package:

* `src/content/markdown.ts` — the markdown-to-node compiler and the
  node-to-markup serializer (`escapeText`, `parseInline`,
  `compileMarkdown`, `vnodesToHtml`);
* `src/content/query.ts` — the `ZenCollection` query builder
  (`where` / `sortBy` / `limit` / `fields` / `enhanceWith`, terminals
  `get` / `all` / `first` / `count` / `groupByFolder().get`);
* `src/content/enhancers.ts` — `builtInEnhancers` and `applyEnhancers`;
* `src/content/hooks/useZenOrder.ts` — the navigation helpers
  `getNextDoc` / `getPrevDoc` and the URL helpers
  `buildDocUrl` / `parseDocUrl`.

Modelling conventions:

* JavaScript strings are modelled as `List Char` at the working level
  (converted to `String` at node boundaries); the handful of JS string
  methods the source uses (`trim`, `split`, `startsWith`, `slice`,
  regex prefix matches) are given explicit executable definitions.
* Regular-expression prefix matches are embedded as the equivalent
  deterministic scanners (the regexes in the source are anchored and
  use only lazy/greedy character-class repetition, whose backtracking
  behaviour is reproduced exactly; each scanner is documented at its
  definition).
* Asynchronous code (`applyEnhancers`, `ZenCollection.get`) has no
  genuine concurrency — each item's enhancer chain is strictly
  sequential and `Promise.all` preserves order — so it is embedded as
  pure sequential code.
* The enhancer registry is a plain object literal, and the source
  reads it with a bracket lookup, which also resolves
  `Object.prototype`-inherited property names; the lookup and the
  non-item chain values such a hit produces are modelled explicitly
  (`RegistryValue`, `EnhOutcome`).
* `Array.prototype.sort` with a comparator `c` is stable (ES2019) and,
  for a consistent comparator, produces the unique stable reordering;
  it is embedded as `List.mergeSort` with `le a b := c a b ≤ 0`.
* The open field map of a content item is modelled with the fixed
  named fields the source reads (`id`, `slug`, `content`, plus the two
  fields the built-in enhancers attach) together with an
  integer-valued total map for the remaining sortable fields.
* The block scanner of `compileMarkdown` does not terminate on every
  input (its paragraph fallback can fail to advance the line cursor),
  so it is embedded with explicit fuel; `none` marks divergence and a
  step that consumes at least one line per iteration needs at most
  one fuel unit per input line.
-/

/-! ## JS string primitives -/

/-- The whitespace class of JS `\s` / `String.prototype.trim`
(restricted to the characters that can actually occur here:
space, tab, newline, carriage return, vertical tab, form feed,
no-break space). -/
def jsIsSpace (c : Char) : Bool :=
  c = ' ' || c = '\t' || c = '\n' || c = '\r' ||
  c = '\x0b' || c = '\x0c' || c = Char.ofNat 160

/-- JS `String.prototype.trim`: strip leading and trailing whitespace. -/
def jsTrim (s : List Char) : List Char :=
  ((s.dropWhile jsIsSpace).reverse.dropWhile jsIsSpace).reverse

/-- JS `String.prototype.split(sep)` for a single-character separator:
`''.split(sep) = ['']`, and every separator occurrence opens a new
(possibly empty) field. -/
def splitOnChar (sep : Char) : List Char → List (List Char)
  | [] => [[]]
  | c :: cs =>
    let r := splitOnChar sep cs
    if c = sep then [] :: r
    else
      match r with
      | t :: ts => (c :: t) :: ts
      | [] => [[c]]

/-- `sep.join(strs)` on `List Char` pieces (JS `Array.prototype.join`). -/
def joinWith (sep : List Char) : List (List Char) → List Char
  | [] => []
  | [x] => x
  | x :: y :: rest => x ++ sep ++ joinWith sep (y :: rest)

/-- JS truthiness of `a || b` for an optional string:
`undefined`/`null` and the empty string fall through to `b`. -/
def jsOrStr (a : Option String) (b : String) : String :=
  match a with
  | some s => if s = "" then b else s
  | none => b

/-! ## Markdown: `escapeText` and the node type (src/content/markdown.ts) -/

/-- One pass of JS `String.prototype.replace(/c/g, rep)` for a
single-character pattern `c`: every occurrence is replaced. -/
def replaceChar (c : Char) (rep : List Char) : List Char → List Char
  | [] => []
  | x :: xs => (if x = c then rep else [x]) ++ replaceChar c rep xs

/-- `escapeText` (markdown.ts:39-44): three sequential global
replaces, `&` first, then `<`, then `>`. -/
def escapeText (s : List Char) : List Char :=
  replaceChar '>' "&gt;".data
    (replaceChar '<' "&lt;".data
      (replaceChar '&' "&amp;".data s))

/-- `VNode` (markdown.ts:24-28): a tag, ordered present-or-null
attributes, and children that are nodes or literal text leaves. -/
inductive VNode where
  | elem (tag : String) (props : List (String × Option String)) (children : List VNode)
  | text (s : String)

/-- Attribute serialization (markdown.ts:222-234): keep entries whose
value is not null, render `k="v"`, join with single spaces. -/
def renderAttrs (props : List (String × Option String)) : List Char :=
  joinWith [' ']
    ((props.filterMap (fun kv =>
        kv.2.map (fun v => (kv.1, v)))).map
      (fun kv => kv.1.data ++ '=' :: '"' :: kv.2.data ++ ['"']))

mutual

/-- `renderNode` inside `vnodesToHtml` (markdown.ts:215-240): text
leaves are escaped with `escapeText`; `hr`/`br` self-close; other
elements render attributes, children, and a close tag. -/
def renderNode : VNode → List Char
  | .text s => escapeText s.data
  | .elem tag props children =>
    let attrs := renderAttrs props
    if tag = "hr" || tag = "br" then
      if attrs ≠ [] then '<' :: tag.data ++ ' ' :: attrs ++ " />".data
      else '<' :: tag.data ++ " />".data
    else
      let childrenHtml := renderChildren children
      if attrs ≠ [] then
        '<' :: tag.data ++ ' ' :: attrs ++ '>' :: childrenHtml ++ '<' :: '/' :: tag.data ++ ['>']
      else
        '<' :: tag.data ++ '>' :: childrenHtml ++ '<' :: '/' :: tag.data ++ ['>']

/-- `children.map(renderNode).join('')` (markdown.ts:236). -/
def renderChildren : List VNode → List Char
  | [] => []
  | n :: ns => renderNode n ++ renderChildren ns

end

/-- `vnodesToHtml` (markdown.ts:214-244): render each top-level node,
join with single newlines. -/
def vnodesToHtml (nodes : List VNode) : String :=
  (joinWith ['\n'] (nodes.map renderNode)).asString

/-- The per-character escaping map: `&`, `<`, `>` become entities,
every other character is untouched. (Specification-side description of
what a single escaping pass does to each character.) -/
def escChar (c : Char) : List Char :=
  if c = '&' then "&amp;".data
  else if c = '<' then "&lt;".data
  else if c = '>' then "&gt;".data
  else [c]

theorem replaceChar_append (c : Char) (rep l1 l2 : List Char) :
    replaceChar c rep (l1 ++ l2) = replaceChar c rep l1 ++ replaceChar c rep l2 := by
  induction l1 with
  | nil => rfl
  | cons x xs ih => simp [replaceChar, ih]

theorem replaceChar_flatMap (c : Char) (rep : List Char) (l : List Char) :
    replaceChar c rep l = l.flatMap (fun x => if x = c then rep else [x]) := by
  induction l with
  | nil => rfl
  | cons x xs ih => simp [replaceChar, List.flatMap_cons, ih]

/-- `escapeText` is one single-pass character-wise substitution: the
`&` pass runs first, and the entities it introduces contain no `<` or
`>`, so the later passes touch nothing the first pass produced. -/
theorem escapeText_eq_flatMap (l : List Char) :
    escapeText l = l.flatMap escChar := by
  induction l with
  | nil => rfl
  | cons x xs ih =>
    show escapeText (x :: xs) = escChar x ++ xs.flatMap escChar
    rw [show (x :: xs) = [x] ++ xs from rfl]
    simp only [escapeText, replaceChar_append]
    rw [show replaceChar '>' "&gt;".data
          (replaceChar '<' "&lt;".data (replaceChar '&' "&amp;".data xs)) = escapeText xs from rfl, ih]
    congr 1
    by_cases hamp : x = '&'
    · subst hamp; rfl
    · by_cases hlt : x = '<'
      · subst hlt; rfl
      · by_cases hgt : x = '>'
        · subst hgt; rfl
        · simp [replaceChar, escChar, hamp, hlt, hgt]

/-- C1 counterexample: serializing a text leaf that already contains
the escaped entity `&amp;` double-escapes it — the output is
`&amp;amp;`, not `&amp;`. -/
theorem vnodesToHtml_double_escapes_entity :
    vnodesToHtml [VNode.text "&amp;"] = "&amp;amp;" ∧
    vnodesToHtml [VNode.text "&amp;"] ≠ "&amp;" := by
  constructor
  · rfl
  · decide

/-- C1 (amended): serializing a text leaf escapes it with a single
character-wise pass that rewrites exactly `&`, `<`, `>` to their
entities and leaves every other character unchanged (so entities the
escaper itself introduces are never re-escaped); but a text leaf that
already contains an escaped entity has its `&` escaped again, e.g. a
`&amp;` leaf serializes to `&amp;amp;`. -/
theorem vnodesToHtml_escape_spec :
    (∀ s : String, vnodesToHtml [VNode.text s] = (s.data.flatMap escChar).asString)
    ∧ (∀ c : Char, escChar c = [c] ∨ c = '&' ∨ c = '<' ∨ c = '>')
    ∧ vnodesToHtml [VNode.text "&amp;"] = "&amp;amp;" := by
  refine ⟨fun s => ?_, fun c => ?_, rfl⟩
  · show (joinWith ['\n'] [renderNode (VNode.text s)]).asString = _
    rw [show joinWith ['\n'] [renderNode (VNode.text s)] = renderNode (VNode.text s) from rfl,
        show renderNode (VNode.text s) = escapeText s.data from rfl,
        escapeText_eq_flatMap]
  · by_cases h1 : c = '&'
    · exact Or.inr (Or.inl h1)
    · by_cases h2 : c = '<'
      · exact Or.inr (Or.inr (Or.inl h2))
      · by_cases h3 : c = '>'
        · exact Or.inr (Or.inr (Or.inr h3))
        · exact Or.inl (by simp [escChar, h1, h2, h3])

/-! ## Markdown: the inline parser `parseInline` (markdown.ts:49-98) -/

/-- The backtick character (written by code point to keep the source
free of raw backticks). -/
def btChar : Char := Char.ofNat 96

/-- The lazy scan of `(.+?)` up to a closing delimiter, as in the bold
regex `^(\*\*|__)(.+?)\1`: find the smallest non-empty prefix of `s`
followed by `delim`; `.` never matches a newline. Returns the content
and the remainder after the closing delimiter. -/
def lazyScan (delim : List Char) : List Char → Option (List Char × List Char)
  | [] => none
  | c :: cs =>
    if c = '\n' then none
    else if delim.isPrefixOf cs then some ([c], cs.drop delim.length)
    else
      match lazyScan delim cs with
      | some (content, rest) => some (c :: content, rest)
      | none => none

/-- The bold match `^(\*\*|__)(.+?)\1` (markdown.ts:56): the
alternation tries `**` first; the middle is lazy to the nearest
matching close. -/
def matchBold (s : List Char) : Option (List Char × List Char) :=
  if "**".data.isPrefixOf s then lazyScan "**".data (s.drop 2)
  else if "__".data.isPrefixOf s then lazyScan "__".data (s.drop 2)
  else none

/-- The lazy scan of `(.+?)\1(?!\1)` for the italic regex: find the
smallest non-empty prefix followed by the one-character delimiter `d`
that is itself not followed by another `d`; a close position whose
lookahead fails is absorbed into the content (regex backtracking
expands the lazy group past it). -/
def italicScan (d : Char) : List Char → Option (List Char × List Char)
  | [] => none
  | [_] => none
  | c :: e :: rest =>
    if c = '\n' then none
    else if e = d ∧ rest.head? ≠ some d then some ([c], rest)
    else
      match italicScan d (e :: rest) with
      | some (content, r) => some (c :: content, r)
      | none => none

/-- The italic match `^(\*|_)(?!\1)(.+?)\1(?!\1)` (markdown.ts:63):
single `*` or `_`, not doubled on either side. -/
def matchItalic (s : List Char) : Option (List Char × List Char) :=
  match s with
  | [] => none
  | c :: cs =>
    if c = '*' ∨ c = '_' then
      if cs.head? = some c then none
      else italicScan c cs
    else none

/-- The inline-code match `` ^`([^`]+)` `` (markdown.ts:70): a
backtick, then everything up to the next backtick (non-empty, and a
closing backtick must exist). -/
def matchCode : List Char → Option (List Char × List Char)
  | [] => none
  | c :: cs =>
    if c = btChar then
      if (cs.dropWhile (fun x => x ≠ btChar)).isEmpty then none
      else if (cs.takeWhile (fun x => x ≠ btChar)).isEmpty then none
      else some (cs.takeWhile (fun x => x ≠ btChar), (cs.dropWhile (fun x => x ≠ btChar)).tail)
    else none

/-- The link match `^\[([^\]]+)\]\(([^)]+)\)` (markdown.ts:77):
`[text](url)` with non-empty bracket-free text and non-empty
parenthesis-free url. -/
def matchLink : List Char → Option (List Char × List Char × List Char)
  | [] => none
  | c :: cs =>
    if c = '[' then
      if (cs.dropWhile (fun x => x ≠ ']')).isEmpty then none
      else if (cs.takeWhile (fun x => x ≠ ']')).isEmpty then none
      else if ((cs.dropWhile (fun x => x ≠ ']')).tail).head? = some '(' then
        if (((cs.dropWhile (fun x => x ≠ ']')).tail.tail).dropWhile (fun x => x ≠ ')')).isEmpty then
          none
        else if (((cs.dropWhile (fun x => x ≠ ']')).tail.tail).takeWhile (fun x => x ≠ ')')).isEmpty then
          none
        else
          some (cs.takeWhile (fun x => x ≠ ']'),
            ((cs.dropWhile (fun x => x ≠ ']')).tail.tail).takeWhile (fun x => x ≠ ')'),
            (((cs.dropWhile (fun x => x ≠ ']')).tail.tail).dropWhile (fun x => x ≠ ')')).tail)
      else none
    else none

/-- The plain-text fallback's special-character class `[\*_\x60\[]`
(markdown.ts:85). -/
def isSpecialChar (c : Char) : Bool :=
  c = '*' || c = '_' || c = btChar || c = '['

/-- The loop body of `parseInline` (markdown.ts:49-98), with explicit
fuel. Every iteration consumes at least one character, so fuel equal
to the input length never runs out (`parseInlineGo_fuel`); the
fuel-exhausted branch is unreachable from `parseInline`. -/
def parseInlineGo : Nat → List Char → List VNode
  | _, [] => []
  | 0, _ :: _ => []
  | fuel + 1, c :: cs =>
    match matchBold (c :: cs) with
    | some (content, rest) =>
      VNode.elem "strong" [] [VNode.text content.asString] :: parseInlineGo fuel rest
    | none =>
      match matchItalic (c :: cs) with
      | some (content, rest) =>
        VNode.elem "em" [] [VNode.text content.asString] :: parseInlineGo fuel rest
      | none =>
        match matchCode (c :: cs) with
        | some (content, rest) =>
          VNode.elem "code" [] [VNode.text content.asString] :: parseInlineGo fuel rest
        | none =>
          match matchLink (c :: cs) with
          | some (text, url, rest) =>
            VNode.elem "a" [("href", some url.asString)] [VNode.text text.asString] ::
              parseInlineGo fuel rest
          | none =>
            match cs.findIdx? isSpecialChar with
            | none => [VNode.text (c :: cs).asString]
            | some n =>
              VNode.text ((c :: cs).take (n + 1)).asString ::
                parseInlineGo fuel ((c :: cs).drop (n + 1))

/-- `parseInline` (markdown.ts:49-98). -/
def parseInline (s : List Char) : List VNode :=
  parseInlineGo s.length s

theorem lazyScan_length (delim : List Char) :
    ∀ l content rest, lazyScan delim l = some (content, rest) → rest.length < l.length := by
  intro l
  induction l with
  | nil => intro content rest h; simp [lazyScan] at h
  | cons c cs ih =>
    intro content rest h
    by_cases hn : c = '\n'
    · simp [lazyScan, hn] at h
    · by_cases hp : delim.isPrefixOf cs
      · simp [lazyScan, hn, hp] at h
        obtain ⟨-, hr⟩ := h
        subst hr
        calc (cs.drop delim.length).length ≤ cs.length := by
              rw [List.length_drop]; omega
          _ < (c :: cs).length := by simp
      · rcases hrec : lazyScan delim cs with - | ⟨content', rest'⟩
        · simp [lazyScan, hn, hp, hrec] at h
        · simp [lazyScan, hn, hp, hrec] at h
          obtain ⟨-, hr⟩ := h
          subst hr
          exact Nat.lt_trans (ih content' rest' hrec) (by simp)

theorem italicScan_length (d : Char) :
    ∀ l content rest, italicScan d l = some (content, rest) → rest.length < l.length
  | [], content, rest, h => by simp [italicScan] at h
  | [c], content, rest, h => by simp [italicScan] at h
  | c :: e :: tl, content, rest, h => by
    unfold italicScan at h
    split at h
    · exact absurd h (by simp)
    · split at h
      · obtain ⟨-, hr⟩ : [c] = content ∧ tl = rest := by simpa using h
        subst hr
        simp only [List.length_cons]
        omega
      · split at h
        · next content' r' hrec =>
            obtain ⟨-, hr⟩ : c :: content' = content ∧ r' = rest := by simpa using h
            subst hr
            exact Nat.lt_trans (italicScan_length d (e :: tl) content' r' hrec) (by simp)
        · exact absurd h (by simp)

theorem matchBold_length (s content rest : List Char)
    (h : matchBold s = some (content, rest)) : rest.length < s.length := by
  unfold matchBold at h
  by_cases h2 : "**".data.isPrefixOf s
  · simp only [h2, if_true] at h
    have := lazyScan_length "**".data (s.drop 2) content rest h
    have hd : (s.drop 2).length ≤ s.length := by rw [List.length_drop]; omega
    omega
  · by_cases h3 : "__".data.isPrefixOf s
    · simp only [h2, h3, if_false, if_true] at h
      have := lazyScan_length "__".data (s.drop 2) content rest h
      have hd : (s.drop 2).length ≤ s.length := by rw [List.length_drop]; omega
      omega
    · simp [h2, h3] at h

theorem matchItalic_length (s content rest : List Char)
    (h : matchItalic s = some (content, rest)) : rest.length < s.length := by
  match s with
  | [] => simp [matchItalic] at h
  | c :: cs =>
    by_cases hd : c = '*' ∨ c = '_'
    · by_cases hl : cs.head? = some c
      · simp [matchItalic, hd, hl] at h
      · simp only [matchItalic, hd, if_true, hl, if_false] at h
        exact Nat.lt_trans (italicScan_length c cs content rest h) (by simp)
    · simp [matchItalic, hd] at h

theorem dropWhile_tail_length (p : Char → Bool) (l : List Char)
    (h : (l.dropWhile p).isEmpty = false) : (l.dropWhile p).tail.length < l.length := by
  have hsub := (List.dropWhile_sublist (l := l) (p := p)).length_le
  have hne : (l.dropWhile p).length ≠ 0 := by
    intro h0
    rw [List.length_eq_zero] at h0
    rw [h0] at h
    simp at h
  rw [List.length_tail]
  omega

theorem matchCode_length (s content rest : List Char)
    (h : matchCode s = some (content, rest)) : rest.length < s.length := by
  match s with
  | [] => simp [matchCode] at h
  | c :: cs =>
    simp only [matchCode] at h
    split at h
    · split at h
      · exact absurd h (by simp)
      · split at h
        · exact absurd h (by simp)
        · next hne _ =>
            obtain ⟨-, hr⟩ : _ ∧ (cs.dropWhile (fun x => x ≠ btChar)).tail = rest := by
              simpa using h
            subst hr
            have := dropWhile_tail_length (fun x => x ≠ btChar) cs (by simpa using hne)
            simp only [List.length_cons]
            omega
    · exact absurd h (by simp)

theorem matchLink_length (s text url rest : List Char)
    (h : matchLink s = some (text, url, rest)) : rest.length < s.length := by
  match s with
  | [] => simp [matchLink] at h
  | c :: cs =>
    simp only [matchLink] at h
    split at h
    · split at h
      · exact absurd h (by simp)
      · next hne1 =>
          split at h
          · exact absurd h (by simp)
          · split at h
            · split at h
              · exact absurd h (by simp)
              · split at h
                · exact absurd h (by simp)
                · next hne2 _ =>
                    obtain ⟨-, -, hr⟩ :
                        _ ∧ _ ∧ (((cs.dropWhile (fun x => x ≠ ']')).tail.tail).dropWhile
                          (fun x => x ≠ ')')).tail = rest := by
                      simpa using h
                    subst hr
                    have h1 := dropWhile_tail_length (fun x => x ≠ ']') cs (by simpa using hne1)
                    have h2 := dropWhile_tail_length (fun x => x ≠ ')')
                      ((cs.dropWhile (fun x => x ≠ ']')).tail.tail) (by simpa using hne2)
                    have h3 : ((cs.dropWhile (fun x => x ≠ ']')).tail.tail).length ≤
                        ((cs.dropWhile (fun x => x ≠ ']')).tail).length := by
                      rw [List.length_tail]
                      omega
                    simp only [List.length_cons]
                    omega
            · exact absurd h (by simp)
    · exact absurd h (by simp)

theorem parseInlineGo_nil (fuel : Nat) : parseInlineGo fuel [] = [] := by
  cases fuel <;> rfl

/-- Fuel adequacy for `parseInlineGo`: every iteration of the source
loop consumes at least one character, so any fuel at least the input
length computes the loop's full result (in particular `parseInline`'s
choice `fuel = s.length` is enough, and the fuel-exhausted branch is
unreachable). -/
theorem parseInlineGo_fuel :
    ∀ (f1 f2 : Nat) (s : List Char), s.length ≤ f1 → s.length ≤ f2 →
      parseInlineGo f1 s = parseInlineGo f2 s := by
  intro f1
  induction f1 with
  | zero =>
    intro f2 s h1 h2
    have : s = [] := List.length_eq_zero.mp (Nat.le_zero.mp h1)
    subst this
    rw [parseInlineGo_nil, parseInlineGo_nil]
  | succ n ih =>
    intro f2 s h1 h2
    match s with
    | [] => rw [parseInlineGo_nil, parseInlineGo_nil]
    | c :: cs =>
      match f2 with
      | 0 => exact absurd h2 (by simp)
      | m + 1 =>
        simp only [List.length_cons] at h1 h2
        rcases hb : matchBold (c :: cs) with - | ⟨content, rest⟩
        · rcases hi : matchItalic (c :: cs) with - | ⟨content, rest⟩
          · rcases hc : matchCode (c :: cs) with - | ⟨content, rest⟩
            · rcases hl : matchLink (c :: cs) with - | ⟨text, url, rest⟩
              · rcases hf : cs.findIdx? isSpecialChar with - | n'
                · simp only [parseInlineGo, hb, hi, hc, hl, hf]
                · simp only [parseInlineGo, hb, hi, hc, hl, hf]
                  congr 1
                  have hlen : ((c :: cs).drop (n' + 1)).length ≤ cs.length := by
                    rw [List.length_drop]
                    simp only [List.length_cons]
                    omega
                  exact ih m _ (by omega) (by omega)
              · simp only [parseInlineGo, hb, hi, hc, hl]
                congr 1
                have := matchLink_length (c :: cs) text url rest hl
                simp only [List.length_cons] at this
                exact ih m _ (by omega) (by omega)
            · simp only [parseInlineGo, hb, hi, hc]
              congr 1
              have := matchCode_length (c :: cs) content rest hc
              simp only [List.length_cons] at this
              exact ih m _ (by omega) (by omega)
          · simp only [parseInlineGo, hb, hi]
            congr 1
            have := matchItalic_length (c :: cs) content rest hi
            simp only [List.length_cons] at this
            exact ih m _ (by omega) (by omega)
        · simp only [parseInlineGo, hb]
          congr 1
          have := matchBold_length (c :: cs) content rest hb
          simp only [List.length_cons] at this
          exact ih m _ (by omega) (by omega)

/-! ## Markdown: the block scanner `compileMarkdown` (markdown.ts:103-208) -/

/-- The heading match `^(#{1,6})\s+(.+)$` (markdown.ts:135) on an
already-trimmed line: one to six `#`, at least one whitespace, then a
non-empty remainder. (A trimmed line cannot end in whitespace, so the
regex engine's possible backtracking of `\s+` into `(.+)` never
arises on the inputs this is applied to.) -/
def headingParse (t : List Char) : Option (Nat × List Char) :=
  if 1 ≤ (t.takeWhile (fun c => c = '#')).length ∧
      (t.takeWhile (fun c => c = '#')).length ≤ 6 then
    if ((t.drop (t.takeWhile (fun c => c = '#')).length).takeWhile jsIsSpace).isEmpty then none
    else if ((t.drop (t.takeWhile (fun c => c = '#')).length).dropWhile jsIsSpace).isEmpty then none
    else some ((t.takeWhile (fun c => c = '#')).length,
      (t.drop (t.takeWhile (fun c => c = '#')).length).dropWhile jsIsSpace)
  else none

/-- The horizontal-rule test `^([-*_])\1{2,}$` (markdown.ts:145): three
or more copies of the same character among `-`, `*`, `_`. -/
def hrTest : List Char → Bool
  | [] => false
  | c :: rest =>
    (c = '-' || c = '*' || c = '_') && decide (2 ≤ rest.length) && rest.all (fun x => x = c)

/-- The unordered-list test `^[-*]\s+/` (markdown.ts:163). -/
def ulTest : List Char → Bool
  | c :: d :: _ => (c = '-' || c = '*') && jsIsSpace d
  | _ => false

/-- The ordered-list test `^\d+\.\s+/` (markdown.ts:175). -/
def olTest (t : List Char) : Bool :=
  !(t.takeWhile Char.isDigit).isEmpty &&
    match t.drop (t.takeWhile Char.isDigit).length with
    | c :: d :: _ => c = '.' && jsIsSpace d
    | _ => false

/-- An unordered list item's text: `trim().replace(/^[-*]\s+/, '')`
(markdown.ts:166). -/
def ulItemText (t : List Char) : List Char :=
  (t.drop 1).dropWhile jsIsSpace

/-- An ordered list item's text: `trim().replace(/^\d+\.\s+/, '')`
(markdown.ts:178). -/
def olItemText (t : List Char) : List Char :=
  ((t.drop (t.takeWhile Char.isDigit).length).drop 1).dropWhile jsIsSpace

/-- The paragraph-collection condition (markdown.ts:189-196): a line
whose trimmed form is non-empty and matches none of the other block
openers. Note the source tests `startsWith('#')` here, while the
heading branch requires the full heading regex — a line such as `#x`
satisfies neither, which is what makes the scanner diverge. -/
def paraLine (l : List Char) : Bool :=
  !(jsTrim l).isEmpty &&
  !("#".data.isPrefixOf (jsTrim l)) &&
  !("```".data.isPrefixOf (jsTrim l)) &&
  !(">".data.isPrefixOf (jsTrim l)) &&
  !(ulTest (jsTrim l)) &&
  !(olTest (jsTrim l)) &&
  !(hrTest (jsTrim l))

/-- One iteration of the `while (i < lines.length)` loop of
`compileMarkdown` (markdown.ts:103-208): from the remaining lines,
produce the nodes emitted by this iteration and the remaining lines
afterwards. The paragraph fallback can emit nothing and leave the
line list unchanged (when the first line trim-starts with `#` but is
not a heading), reproducing the source's non-advancing iteration. -/
def compileStep : List (List Char) → List VNode × List (List Char)
  | [] => ([], [])
  | line :: rest =>
    if (jsTrim line).isEmpty then ([], rest)
    else if "```".data.isPrefixOf (jsTrim line) then
      ([VNode.elem "pre" []
          [VNode.elem "code"
            (if (jsTrim ((jsTrim line).drop 3)).isEmpty then []
             else [("class", some ("language-".data ++ jsTrim ((jsTrim line).drop 3)).asString)])
            [VNode.text (joinWith ['\n']
              (rest.takeWhile (fun l => !("```".data.isPrefixOf (jsTrim l))))).asString]]],
        (rest.dropWhile (fun l => !("```".data.isPrefixOf (jsTrim l)))).tail)
    else
      match headingParse (jsTrim line) with
      | some (level, text) =>
        ([VNode.elem ("h" ++ toString level) [] (parseInline text)], rest)
      | none =>
        if hrTest (jsTrim line) then ([VNode.elem "hr" [] []], rest)
        else if ">".data.isPrefixOf (jsTrim line) then
          ([VNode.elem "blockquote" []
              (parseInline (joinWith [' ']
                (((line :: rest).takeWhile (fun l => ">".data.isPrefixOf (jsTrim l))).map
                  (fun l => jsTrim ((jsTrim l).drop 1)))))],
            (line :: rest).dropWhile (fun l => ">".data.isPrefixOf (jsTrim l)))
        else if ulTest (jsTrim line) then
          ([VNode.elem "ul" []
              (((line :: rest).takeWhile (fun l => ulTest (jsTrim l))).map
                (fun l => VNode.elem "li" [] (parseInline (ulItemText (jsTrim l)))))],
            (line :: rest).dropWhile (fun l => ulTest (jsTrim l)))
        else if olTest (jsTrim line) then
          ([VNode.elem "ol" []
              (((line :: rest).takeWhile (fun l => olTest (jsTrim l))).map
                (fun l => VNode.elem "li" [] (parseInline (olItemText (jsTrim l)))))],
            (line :: rest).dropWhile (fun l => olTest (jsTrim l)))
        else
          (if ((line :: rest).takeWhile paraLine).isEmpty then []
           else [VNode.elem "p" []
              (parseInline (joinWith [' ']
                (((line :: rest).takeWhile paraLine).map jsTrim)))],
            (line :: rest).dropWhile paraLine)

/-- The block loop with explicit fuel: `none` marks a run that did not
reach the end of the input within the given fuel, i.e. divergence of
the source loop when the fuel already covers one unit per input line
(every productive iteration consumes at least one line). -/
def runBlocks : Nat → List (List Char) → Option (List VNode)
  | _, [] => some []
  | 0, _ :: _ => none
  | fuel + 1, line :: rest =>
    match runBlocks fuel (compileStep (line :: rest)).2 with
    | some more => some ((compileStep (line :: rest)).1 ++ more)
    | none => none

/-- `compileMarkdown` (markdown.ts:103-208): split on newlines and run
the block loop. A `some` result is the node list the source returns; a
`none` result means the source's loop never terminates on this input
(one fuel unit per line plus one is enough for every terminating
run). -/
def compileMarkdown (markdown : String) : Option (List VNode) :=
  runBlocks ((splitOnChar '\n' markdown.data).length + 1) (splitOnChar '\n' markdown.data)

/-- C6: compiling `**a*b*c**` yields exactly one bold (strong) node
whose single child is the literal text `a*b*c` — the bold match is
lazy to the nearest closing `**` and the captured content is pushed as
a raw text leaf, not inline-parsed again. At block level this inline
result is the body of the single paragraph node. -/
theorem parseInline_bold_nongreedy :
    parseInline "**a*b*c**".data = [VNode.elem "strong" [] [VNode.text "a*b*c"]] ∧
    compileMarkdown "**a*b*c**" =
      some [VNode.elem "p" [] [VNode.elem "strong" [] [VNode.text "a*b*c"]]] :=
  ⟨rfl, rfl⟩

/-- C7: the block scanner is *not* total. On the input `#x` — a line
that trim-starts with `#` but does not match the heading regex
`^(#{1,6})\s+(.+)$` — every block branch rejects the line and the
paragraph fallback collects zero lines without advancing the line
cursor, so the source's `while` loop runs forever: no amount of fuel
completes the run, and `compileMarkdown` never returns a node
sequence for this input. -/
theorem compileMarkdown_diverges_on_hash :
    (∀ fuel, runBlocks fuel ["#x".data] = none) ∧ compileMarkdown "#x" = none := by
  have hstep : compileStep ["#x".data] = ([], ["#x".data]) := rfl
  have hall : ∀ fuel, runBlocks fuel ["#x".data] = none := by
    intro fuel
    induction fuel with
    | zero => rfl
    | succ n ih =>
      show runBlocks (n + 1) ["#x".data] = none
      simp only [runBlocks, hstep, ih]
  refine ⟨hall, ?_⟩
  have heq : compileMarkdown "#x" = runBlocks 2 ["#x".data] := rfl
  rw [heq]
  exact hall 2

/-! ## Content items and enhancers (src/content/types.ts, enhancers.ts) -/

/-- A content item (types.ts:1-7): identifier, slug, collection-scoped
compiled content, and an open mapping of additional named fields. The
two fields the built-in enhancers attach (`wordCount`, `readTime`)
are modelled as named optional fields; the remaining open fields are
modelled as an integer-valued total map (the generic sort in query.ts
compares the runtime values with `<`/`>`, which the specification
leaves defined only for mutually comparable values — integers here;
absent-field comparison is explicitly unspecified in the spec). -/
structure ContentItem where
  id : Option String
  slug : Option String
  content : Option String
  wordCount : Option Nat
  readTime : Option String
  fields : String → Int

/-- JS `text.split(/\s+/)` driver: `false` = inside a token with the
accumulated (reversed) token characters, `true` = inside a whitespace
run. Maximal whitespace runs separate fields; leading and trailing
runs contribute empty fields; the empty string yields `[""]`. -/
def wsGo : Bool → List Char → List Char → List String
  | false, [], acc => [acc.reverse.asString]
  | false, c :: cs, acc =>
    if jsIsSpace c then acc.reverse.asString :: wsGo true cs []
    else wsGo false cs (c :: acc)
  | true, [], _ => [""]
  | true, c :: cs, acc =>
    if jsIsSpace c then wsGo true cs acc
    else wsGo false cs [c]

/-- `text.split(/\s+/)` (enhancers.ts:7,16). -/
def jsSplitWs (s : String) : List String := wsGo false s.data []

/-- The built-in `readTime` enhancer (enhancers.ts:4-13):
`minutes = Math.ceil(wordCount / 200)` attached as `"{minutes} min"`;
`wordCount = (item.content || '').split(/\s+/).length`. -/
def readTimeEnh (item : ContentItem) : ContentItem :=
  { item with
    readTime := some
      (toString (((jsSplitWs (jsOrStr item.content "")).length + 200 - 1) / 200) ++ " min") }

/-- The built-in `wordCount` enhancer (enhancers.ts:14-21). -/
def wordCountEnh (item : ContentItem) : ContentItem :=
  { item with wordCount := some (jsSplitWs (jsOrStr item.content "")).length }

/-- The property names every plain JS object inherits from
`Object.prototype`. A bracket lookup on the object-literal registry
resolves these after the own keys, and each resulting value is
truthy. -/
def objectPrototypeMembers : List String :=
  ["constructor", "hasOwnProperty", "isPrototypeOf", "propertyIsEnumerable",
   "toLocaleString", "toString", "valueOf",
   "__defineGetter__", "__defineSetter__", "__lookupGetter__", "__lookupSetter__",
   "__proto__"]

/-- A value the `builtInEnhancers[name]` bracket lookup can produce:
one of the registry's own enhancer functions, or an inherited
`Object.prototype` member (a function such as `toString`, or the
`__proto__` object), which is not a content-item enhancer but is
truthy all the same. -/
inductive RegistryValue where
  | own (f : ContentItem → ContentItem)
  | inherited (name : String)

/-- The `builtInEnhancers[enhancer]` bracket lookup (enhancers.ts:3-22,
read at line 28): JS property resolution finds the own keys
`readTime` and `wordCount` first, then the `Object.prototype`-
inherited member names; every other name yields `undefined`. -/
def builtInEnhancers (name : String) : Option RegistryValue :=
  if name = "readTime" then some (.own readTimeEnh)
  else if name = "wordCount" then some (.own wordCountEnh)
  else if name ∈ objectPrototypeMembers then some (.inherited name)
  else none

/-- An enhancement step (types.ts:38-39 `Enhancer = string | EnhancerFn`):
a registry name, a direct transform, or — as `applyEnhancers` checks
defensively at runtime — a value of any other kind. -/
inductive Enhancer where
  | named (name : String)
  | fn (f : ContentItem → ContentItem)
  | other

/-- The enhancer chain's state: a content item, or a chain that has
left the content-item domain because an inherited `Object.prototype`
member was applied as if it were an enhancer. Calling such a member
as `fn(enrichedItem)` leaves `this` unbound, so it either replaces
the chain value with a non-item JS value (`toString` yields the
string `[object Undefined]`) or raises a TypeError (`valueOf`,
`hasOwnProperty`, ..., and the non-callable `__proto__` value). The
embedding records which member was responsible and does not interpret
subsequent steps on the non-item value — they lie outside the
content-item data model. -/
inductive EnhOutcome where
  | ok (item : ContentItem)
  | escaped (memberName : String)

/-- One loop iteration of `applyEnhancers` (enhancers.ts:26-38): a
string is looked up with `builtInEnhancers[enhancer]`; an own-key hit
applies the enhancer; an inherited hit is truthy, so the source takes
the apply branch, not the skip branch — applying `constructor`
(the `Object` function) returns the object argument itself, while
every other inherited member clobbers the chain value or throws; only
a genuine `undefined` lookup is skipped (with a console diagnostic);
a function step is applied; any other step kind is silently
ignored. -/
def enhancerStep (acc : EnhOutcome) (e : Enhancer) : EnhOutcome :=
  match acc with
  | .escaped n => .escaped n
  | .ok item =>
    match e with
    | .named n =>
      match builtInEnhancers n with
      | some (.own f) => .ok (f item)
      | some (.inherited m) => if m = "constructor" then .ok item else .escaped m
      | none => .ok item
    | .fn f => .ok (f item)
    | .other => .ok item

/-- The loop of `applyEnhancers` from an arbitrary chain state. -/
def applyEnhancersLoop (st : EnhOutcome) (enhancers : List Enhancer) : EnhOutcome :=
  enhancers.foldl enhancerStep st

/-- `applyEnhancers` (enhancers.ts:24-39): fold the steps over the
item, strictly in sequence, each step receiving the previous step's
output. -/
def applyEnhancers (item : ContentItem) (enhancers : List Enhancer) : EnhOutcome :=
  applyEnhancersLoop (.ok item) enhancers

/-- Placeholder for a materialization value that an inherited
`Object.prototype` member turned into a non-item JS value (or a
raised TypeError rejecting the whole materialization): it keeps the
query pipeline's result type within the content-item model. The
query-engine claims never run enhancers, so no theorem observes
it. -/
def nonItemValue (memberName : String) : ContentItem :=
  ⟨some ("Object.prototype." ++ memberName), none, none, none, none, fun _ => 0⟩

/-! ## The query builder `ZenCollection` (src/content/query.ts) -/

/-- `SortOrder` (types.ts:36). -/
inductive SortOrder where
  | asc
  | desc
deriving DecidableEq

/-- The builder state (query.ts:4-12): snapshot of the source items
plus the accumulated query specification. -/
structure ZenCollection where
  collectionItems : List ContentItem
  filters : List (ContentItem → Bool)
  sortField : Option String
  sortOrder : SortOrder
  limitCount : Option Int
  selectedFields : Option (List String)
  enhancers : List Enhancer

/-- The constructor `new ZenCollection(items)` (query.ts:14-16): the
snapshot is a copy of the argument; the query spec starts empty, with
sort direction defaulting to descending. -/
def ZenCollection.new (items : List ContentItem) : ZenCollection :=
  ⟨items, [], none, .desc, none, none, []⟩

/-- `where(fn)` (query.ts:18-21): append a filter predicate. -/
def ZenCollection.whereFilter (c : ZenCollection) (p : ContentItem → Bool) : ZenCollection :=
  { c with filters := c.filters ++ [p] }

/-- `sortBy(field, order)` (query.ts:23-27): replace the sort spec. -/
def ZenCollection.sortBy (c : ZenCollection) (field : String) (order : SortOrder) : ZenCollection :=
  { c with sortField := some field, sortOrder := order }

/-- `sortBy(field)` with the direction omitted (query.ts:23): the
default direction is `'desc'`. -/
def ZenCollection.sortByDefault (c : ZenCollection) (field : String) : ZenCollection :=
  c.sortBy field .desc

/-- `limit(n)` (query.ts:29-32). -/
def ZenCollection.limit (c : ZenCollection) (n : Int) : ZenCollection :=
  { c with limitCount := some n }

/-- `fields(fields)` (query.ts:34-37). -/
def ZenCollection.fields (c : ZenCollection) (fs : List String) : ZenCollection :=
  { c with selectedFields := some fs }

/-- `enhanceWith(enhancer)` (query.ts:39-42). -/
def ZenCollection.enhanceWith (c : ZenCollection) (e : Enhancer) : ZenCollection :=
  { c with enhancers := c.enhancers ++ [e] }

/-- Stage 1 of materialization (query.ts:47-50): apply each filter in
registration order. -/
def applyFilters (filters : List (ContentItem → Bool)) (items : List ContentItem) :
    List ContentItem :=
  filters.foldl (fun acc f => acc.filter f) items

/-- The sort comparator (query.ts:53-61): `-1`/`1` by `<`, then `>`,
swapped for descending, `0` on ties. -/
def sortComparator (order : SortOrder) (field : String) (a b : ContentItem) : Int :=
  if a.fields field < b.fields field then
    match order with
    | .asc => -1
    | .desc => 1
  else if b.fields field < a.fields field then
    match order with
    | .asc => 1
    | .desc => -1
  else 0

/-- The "comes no later than" relation induced by the comparator.
`Array.prototype.sort` is stable (ES2019) and for a consistent
comparator produces the unique stable order, which is what
`List.mergeSort` with `le a b := comparator a b ≤ 0` computes. -/
def sortLe (order : SortOrder) (field : String) (a b : ContentItem) : Bool :=
  sortComparator order field a b ≤ 0

/-- Stage 2 of materialization (query.ts:52-62): stable sort by the
comparator when a sort field is set. -/
def applySort (sortField : Option String) (order : SortOrder) (items : List ContentItem) :
    List ContentItem :=
  match sortField with
  | none => items
  | some f => items.mergeSort (sortLe order f)

/-- JS `arr.slice(0, n)`: a non-negative `n` takes the first `n`
elements, a negative `n` counts from the end. -/
def jsSlice0 {α : Type} (n : Int) (l : List α) : List α :=
  if n < 0 then l.take ((l.length : Int) + n).toNat else l.take n.toNat

/-- Stage 3 of materialization (query.ts:65-67). -/
def applyLimit (limitCount : Option Int) (items : List ContentItem) : List ContentItem :=
  match limitCount with
  | none => items
  | some n => jsSlice0 n items

/-- Stage 5 of materialization (query.ts:75-84): rebuild each output
record keeping only the selected field names. (In the open-map model
an unselected extra field reads as the integer default `0`.) -/
def projectFields (fs : List String) (i : ContentItem) : ContentItem :=
  { id := if "id" ∈ fs then i.id else none
    slug := if "slug" ∈ fs then i.slug else none
    content := if "content" ∈ fs then i.content else none
    wordCount := if "wordCount" ∈ fs then i.wordCount else none
    readTime := if "readTime" ∈ fs then i.readTime else none
    fields := fun s => if s ∈ fs then i.fields s else 0 }

/-- The materialization pipeline shared by `get()` (query.ts:44-90)
and, for its first three stages, by `groupByFolder().get()`
(query.ts:258-283, which duplicates the same filter/sort/limit code):
filter → sort → limit → enhancement → projection. `Promise.all` keeps
the pre-enhancement item order. -/
def getResults (c : ZenCollection) : List ContentItem :=
  let r := applyFilters c.filters c.collectionItems
  let r := applySort c.sortField c.sortOrder r
  let r := applyLimit c.limitCount r
  let r := if c.enhancers.isEmpty then r
    else r.map (fun it =>
      match applyEnhancers it c.enhancers with
      | .ok i => i
      | .escaped m => nonItemValue m)
  match c.selectedFields with
  | none => r
  | some fs => r.map (projectFields fs)

/-- Terminal `get()` (query.ts:44-90): the result together with the
builder state after the call (`get` only reads `this`; the sort
mutates the local `results` copy, never the snapshot). -/
def ZenCollection.get (c : ZenCollection) : List ContentItem × ZenCollection :=
  (getResults c, c)

/-- Terminal `all()` (query.ts:92-94): delegates to `get`. -/
def ZenCollection.all (c : ZenCollection) : List ContentItem × ZenCollection :=
  c.get

/-- Terminal `first()` (query.ts:96-99): `this.limit(1).get()` —
note that `limit(1)` mutates the builder itself before `get` runs —
then the head of the results or an explicit absence. -/
def ZenCollection.first (c : ZenCollection) : Option ContentItem × ZenCollection :=
  ((c.limit 1).get.1.head?, c.limit 1)

/-- Terminal `count()` (query.ts:101-104): full materialization, then
the length. -/
def ZenCollection.count (c : ZenCollection) : Nat × ZenCollection :=
  ((getResults c).length, c)

/-! ## Grouping: `groupByFolder().get()` (query.ts:110-171) -/

/-- The grouping key of an item (query.ts:139-141): the first
`/`-segment of `String(item.slug || item.id || '')` when the slug
splits into more than one part, else the literal `'default'`. -/
def folderOf (i : ContentItem) : String :=
  if (splitOnChar '/' (jsOrStr i.slug (jsOrStr i.id "")).data).length > 1 then
    ((splitOnChar '/' (jsOrStr i.slug (jsOrStr i.id "")).data).headD []).asString
  else "default"

/-- `word.charAt(0).toUpperCase() + word.slice(1)` (query.ts:156). -/
def capitalizeWord (w : List Char) : List Char :=
  match w with
  | [] => []
  | c :: rest => c.toUpper :: rest

/-- A group's display title (query.ts:153-157): split the key on `-`,
capitalize each segment's first character, rejoin with spaces. -/
def titleize (folder : String) : String :=
  (joinWith [' '] ((splitOnChar '-' folder.data).map capitalizeWord)).asString

/-- One output group (query.ts:110,148): id, display title, items. -/
structure FolderGroup where
  id : String
  title : String
  items : List ContentItem

/-- One iteration of the `Map` build (query.ts:138-147): push the item
onto its key's group if the key is present (`groups.get(folder).push`),
else append a fresh group at the end (`Map` keeps insertion order). -/
def insertItem (gs : List (String × List ContentItem)) (k : String) (it : ContentItem) :
    List (String × List ContentItem) :=
  match gs with
  | [] => [(k, [it])]
  | (k', its) :: rest =>
    if k' = k then (k', its ++ [it]) :: rest
    else (k', its) :: insertItem rest k it

/-- The insertion-ordered `Map<string, ContentItem[]>` of
query.ts:137-147, as an association list. -/
def buildGroups (items : List ContentItem) : List (String × List ContentItem) :=
  items.foldl (fun gs it => insertItem gs (folderOf it) it) []

/-- Terminal `groupByFolder().get()` (query.ts:110-171): the first
three materialization stages (filter → sort → limit; the source
duplicates the same code as `get`), then the keyed grouping, then one
output group per key in insertion order; the builder state is
returned unchanged (the closure only reads `self`). -/
def ZenCollection.groupByFolderGet (c : ZenCollection) : List FolderGroup × ZenCollection :=
  ((buildGroups
      (applyLimit c.limitCount
        (applySort c.sortField c.sortOrder
          (applyFilters c.filters c.collectionItems)))).map
    (fun g => ⟨g.1, titleize g.1, g.2⟩), c)

/-- Specification-side partition: the distinct keys in order of first
occurrence. -/
def addKey (acc : List String) (k : String) : List String :=
  if k ∈ acc then acc else acc ++ [k]

/-- Specification-side partition: first-occurrence key order of a key
sequence. -/
def firstKeys (ks : List String) : List String :=
  ks.foldl addKey []

/-- Specification-side partition (from the spec's words): one group
per distinct key in first-occurrence order, each group holding the
subsequence of items with that key, in their original order. -/
def groupPartitionSpec (items : List ContentItem) : List (String × List ContentItem) :=
  (firstKeys (items.map folderOf)).map
    (fun k => (k, items.filter (fun it => folderOf it = k)))

theorem mem_addKey (K : List String) (k0 : String) : k0 ∈ addKey K k0 := by
  unfold addKey
  split
  · assumption
  · simp

theorem addKey_subset (K : List String) (k0 k : String) (h : k ∈ K) : k ∈ addKey K k0 := by
  unfold addKey
  split
  · exact h
  · simp [h]

theorem addKey_nodup (K : List String) (k0 : String) (h : K.Nodup) : (addKey K k0).Nodup := by
  unfold addKey
  split
  · exact h
  · next hmem => simp [List.nodup_append, h, hmem]

theorem addKey_cons (k k0 : String) (Ks : List String) (h : ¬k = k0) :
    addKey (k :: Ks) k0 = k :: addKey Ks k0 := by
  have hk0k : ¬k0 = k := fun hkk => h hkk.symm
  unfold addKey
  by_cases hmem : k0 ∈ Ks
  · simp [hmem, List.mem_cons, hk0k]
  · have hninc : ¬k0 ∈ k :: Ks := by
      simp [List.mem_cons, hmem, hk0k]
    simp [hninc, hmem]

theorem insertItem_eq (k0 : String) (it : ContentItem) :
    ∀ (K : List String) (g : String → List ContentItem), K.Nodup → (k0 ∉ K → g k0 = []) →
      insertItem (K.map (fun k => (k, g k))) k0 it
        = (addKey K k0).map (fun k => (k, g k ++ if k = k0 then [it] else [])) := by
  intro K
  induction K with
  | nil =>
    intro g _ h0
    simp [insertItem, addKey, h0 (by simp)]
  | cons k Ks ih =>
    intro g hnd h0
    by_cases hk : k = k0
    · subst hk
      have hnotin : k ∉ Ks := (List.nodup_cons.mp hnd).1
      have haddKey : addKey (k :: Ks) k = k :: Ks := by
        unfold addKey
        simp
      rw [haddKey]
      show insertItem ((k, g k) :: Ks.map (fun k => (k, g k))) k it = _
      unfold insertItem
      rw [if_pos rfl, List.map_cons, if_pos rfl]
      congr 1
      apply List.map_congr_left
      intro x hx
      have hxk : ¬x = k := fun hxk => hnotin (hxk ▸ hx)
      simp [hxk]
    · have hne : ¬(k = k0) := hk
      rw [addKey_cons k k0 Ks hne]
      simp only [List.map_cons, insertItem, if_neg hne]
      rw [ih g (List.nodup_cons.mp hnd).2
        (fun hnot => h0 (by
          have hk0k : ¬k0 = k := fun hkk => hne hkk.symm
          simp [List.mem_cons, hnot, hk0k]))]
      simp [hne]

theorem groupFold_eq :
    ∀ (rest : List ContentItem) (K : List String) (g : String → List ContentItem),
      K.Nodup → (∀ k, k ∉ K → g k = []) →
      rest.foldl (fun gs it => insertItem gs (folderOf it) it) (K.map (fun k => (k, g k)))
        = (rest.foldl (fun acc it => addKey acc (folderOf it)) K).map
            (fun k => (k, g k ++ rest.filter (fun it => folderOf it = k))) := by
  intro rest
  induction rest with
  | nil =>
    intro K g _ _
    simp
  | cons it rest' ih =>
    intro K g hnd h0
    rw [List.foldl_cons, List.foldl_cons,
      insertItem_eq (folderOf it) it K g hnd (h0 _)]
    rw [show (fun k => (k, g k ++ if k = folderOf it then [it] else []))
          = (fun k => (k, (fun k' => g k' ++ if k' = folderOf it then [it] else []) k)) from rfl]
    rw [ih (addKey K (folderOf it))
      (fun k' => g k' ++ if k' = folderOf it then [it] else [])
      (addKey_nodup K (folderOf it) hnd)
      (fun k hk => by
        have hknotK : k ∉ K := fun hmem => hk (addKey_subset K (folderOf it) k hmem)
        have hkne : ¬k = folderOf it := fun he => hk (he ▸ mem_addKey K (folderOf it))
        simp [h0 k hknotK, hkne])]
    congr 1
    funext k
    by_cases hk : k = folderOf it
    · subst hk
      simp [List.filter_cons, List.append_assoc]
    · have : ¬folderOf it = k := fun he => hk he.symm
      simp [List.filter_cons, hk, this]

/-- The insertion-ordered map build equals the specification-side
partition: distinct keys in first-occurrence order, each carrying the
subsequence of its items in original order. -/
theorem buildGroups_eq_partition (items : List ContentItem) :
    buildGroups items = groupPartitionSpec items := by
  have h := groupFold_eq items [] (fun _ => []) List.nodup_nil (fun k _ => rfl)
  simp only [List.map_nil] at h
  unfold buildGroups groupPartitionSpec firstKeys
  rw [h, List.foldl_map]
  simp

/-- C4: the grouping terminal applies only filter → sort → limit
(its result is unchanged under any enrichment steps or projection
set on the builder), partitions the resulting items by the first
`/`-segment of the slug (no `/` ⇒ the single `default` group, per
`folderOf`) into groups in first-encountered key order each keeping
original in-group item order, and titles each group by splitting the
key on `-`, capitalizing each segment's first character and rejoining
with spaces — e.g. `multi-word` titles as `Multi Word`. -/
theorem groupByFolder_spec (c : ZenCollection) :
    c.groupByFolderGet.1
      = (groupPartitionSpec
          (applyLimit c.limitCount
            (applySort c.sortField c.sortOrder
              (applyFilters c.filters c.collectionItems)))).map
          (fun g => ⟨g.1, titleize g.1, g.2⟩)
    ∧ (∀ (e : List Enhancer) (sel : Option (List String)),
        (ZenCollection.mk c.collectionItems c.filters c.sortField c.sortOrder c.limitCount
          sel e).groupByFolderGet.1 = c.groupByFolderGet.1)
    ∧ titleize "multi-word" = "Multi Word" := by
  refine ⟨?_, fun e sel => rfl, rfl⟩
  show (buildGroups _).map _ = _
  rw [buildGroups_eq_partition]

/-- A content item with no named fields set (all open fields read as
the integer default). -/
def itemUnit : ContentItem := ⟨none, none, none, none, none, fun _ => 0⟩

/-- C2 counterexample: terminal reads are not mutually safe — on a
two-item builder, `count()` returns 2, but running `first()` first
(which executes `this.limit(1)`) makes a subsequent `count()` on the
same builder return 1. -/
theorem first_changes_later_count :
    ((ZenCollection.new [itemUnit, itemUnit]).first.2.count).1
      ≠ ((ZenCollection.new [itemUnit, itemUnit]).count).1 := by
  decide

/-- C2 (amended): no terminal operation mutates the builder's source
item snapshot, and `get` / `all` / `count` / `groupByFolder().get`
leave the whole builder state unchanged (so they are mutually safe);
but `first()` leaves the builder with its limit set to 1, so a
terminal read run after a `first()` on the same builder can return a
different result than before it. -/
theorem terminal_reads_spec (c : ZenCollection) :
    (c.get.2 = c ∧ c.all.2 = c ∧ c.count.2 = c ∧ c.groupByFolderGet.2 = c)
    ∧ c.first.2 = c.limit 1
    ∧ c.first.2.collectionItems = c.collectionItems :=
  ⟨⟨rfl, rfl, rfl, rfl⟩, rfl, rfl⟩

/-- C9 counterexample: the registry lookup is a JS bracket lookup, so
the `Object.prototype`-inherited name `toString` — which is not a key
of the registry — is found (the lookup is truthy) and applied instead
of being skipped: the chain leaves the content-item domain rather
than returning the item unchanged as the claim states. -/
theorem toString_step_not_skipped :
    applyEnhancers itemUnit [Enhancer.named "toString"] = EnhOutcome.escaped "toString"
    ∧ applyEnhancers itemUnit [Enhancer.named "toString"] ≠ EnhOutcome.ok itemUnit := by
  constructor
  · rfl
  · intro h
    rw [show applyEnhancers itemUnit [Enhancer.named "toString"]
        = EnhOutcome.escaped "toString" from rfl] at h
    exact EnhOutcome.noConfusion h

/-- C9 (amended): enhancement steps are applied strictly sequentially,
each step receiving the previous step's output (a step list splits as
sequential composition); a named step whose name is a genuine lookup
miss — neither an own registry key nor an inherited
`Object.prototype` member — is skipped (the source only emits a
console diagnostic) leaving the item unchanged, and such a miss never
raises; but a named step matching an inherited `Object.prototype`
member is found by the bracket lookup and applied instead of being
skipped, so the chain leaves the content-item domain (except
`constructor`, whose value `Object` returns the item itself); a step
that is neither a name nor a callable is silently ignored. -/
theorem applyEnhancers_spec :
    (∀ (st : EnhOutcome) (e : Enhancer) (es : List Enhancer),
        applyEnhancersLoop st (e :: es) = applyEnhancersLoop (enhancerStep st e) es)
    ∧ (∀ (st : EnhOutcome) (es1 es2 : List Enhancer),
        applyEnhancersLoop st (es1 ++ es2)
          = applyEnhancersLoop (applyEnhancersLoop st es1) es2)
    ∧ (∀ (item : ContentItem) (name : String), builtInEnhancers name = none →
        applyEnhancers item [Enhancer.named name] = EnhOutcome.ok item)
    ∧ (∀ item : ContentItem, applyEnhancers item [Enhancer.other] = EnhOutcome.ok item)
    ∧ (∀ (item : ContentItem) (name : String),
        name ∈ objectPrototypeMembers → ¬name = "constructor" →
        applyEnhancers item [Enhancer.named name] = EnhOutcome.escaped name)
    ∧ (∀ item : ContentItem,
        applyEnhancers item [Enhancer.named "constructor"] = EnhOutcome.ok item) := by
  refine ⟨fun st e es => rfl, fun st es1 es2 => List.foldl_append _ _ _ _,
    fun item name h => ?_, fun item => rfl, fun item name hmem hcon => ?_, fun item => rfl⟩
  · show enhancerStep (EnhOutcome.ok item) (Enhancer.named name) = EnhOutcome.ok item
    simp [enhancerStep, h]
  · have h1 : ¬name = "readTime" := by
      intro he
      subst he
      revert hmem
      decide
    have h2 : ¬name = "wordCount" := by
      intro he
      subst he
      revert hmem
      decide
    show enhancerStep (EnhOutcome.ok item) (Enhancer.named name) = EnhOutcome.escaped name
    simp [enhancerStep, builtInEnhancers, h1, h2, hmem, hcon]

/-- C9 witness: the name `nope` is a genuine lookup miss and is
skipped, and the inherited name `toString` is found and escapes the
item domain. -/
theorem applyEnhancers_spec_witness :
    applyEnhancers itemUnit [Enhancer.named "nope"] = EnhOutcome.ok itemUnit
    ∧ applyEnhancers itemUnit [Enhancer.named "toString"] = EnhOutcome.escaped "toString" :=
  ⟨applyEnhancers_spec.2.2.1 itemUnit "nope" rfl,
    applyEnhancers_spec.2.2.2.2.1 itemUnit "toString" (by decide) (by decide)⟩

theorem wsGo_length_pos : ∀ (mode : Bool) (l acc : List Char), 1 ≤ (wsGo mode l acc).length := by
  intro mode l
  induction l generalizing mode with
  | nil =>
    intro acc
    cases mode <;> simp [wsGo]
  | cons c cs ih =>
    intro acc
    cases mode
    · by_cases hws : jsIsSpace c
      · simp [wsGo, hws]
      · simpa [wsGo, hws] using ih false _
    · by_cases hws : jsIsSpace c
      · simpa [wsGo, hws] using ih true _
      · simpa [wsGo, hws] using ih false _

/-- C10: on an item whose content is absent or empty, the built-in
`wordCount` enhancer attaches the word count 1 (splitting the empty
string on whitespace yields one empty token) and `readTime` attaches
the string `1 min`; and the attached word count is at least 1 for
every item. -/
theorem builtin_wordCount_spec :
    (∀ item : ContentItem, item.content = none ∨ item.content = some "" →
        (wordCountEnh item).wordCount = some 1 ∧ (readTimeEnh item).readTime = some "1 min")
    ∧ (∀ item : ContentItem, ∃ n : Nat, (wordCountEnh item).wordCount = some n ∧ 1 ≤ n) := by
  constructor
  · intro item h
    have hc : jsOrStr item.content "" = "" := by
      rcases h with h | h <;> simp [jsOrStr, h]
    constructor
    · show some (jsSplitWs (jsOrStr item.content "")).length = some 1
      rw [hc]
      rfl
    · show some (toString (((jsSplitWs (jsOrStr item.content "")).length + 200 - 1) / 200)
          ++ " min") = some "1 min"
      rw [hc]
      rfl
  · intro item
    exact ⟨(jsSplitWs (jsOrStr item.content "")).length, rfl, wsGo_length_pos false _ []⟩

/-- C10 witness: the enhancers applied to an item with absent content. -/
theorem builtin_wordCount_witness :
    (wordCountEnh itemUnit).wordCount = some 1 ∧
    (readTimeEnh itemUnit).readTime = some "1 min" :=
  builtin_wordCount_spec.1 itemUnit (Or.inl rfl)

theorem sortLe_asc_iff (f : String) (a b : ContentItem) :
    sortLe .asc f a b = true ↔ a.fields f ≤ b.fields f := by
  by_cases h1 : a.fields f < b.fields f
  · simp [sortLe, sortComparator, h1]
    omega
  · by_cases h2 : b.fields f < a.fields f
    · simp [sortLe, sortComparator, h1, h2]
    · simp [sortLe, sortComparator, h1, h2]
      omega

theorem sortLe_desc_iff (f : String) (a b : ContentItem) :
    sortLe .desc f a b = true ↔ b.fields f ≤ a.fields f := by
  by_cases h1 : a.fields f < b.fields f
  · simp [sortLe, sortComparator, h1]
  · by_cases h2 : b.fields f < a.fields f
    · simp [sortLe, sortComparator, h1, h2]
      omega
    · simp [sortLe, sortComparator, h1, h2]
      omega

theorem sortLe_trans (o : SortOrder) (f : String) (a b c' : ContentItem)
    (h1 : sortLe o f a b = true) (h2 : sortLe o f b c' = true) : sortLe o f a c' = true := by
  cases o
  · rw [sortLe_asc_iff] at h1 h2 ⊢
    omega
  · rw [sortLe_desc_iff] at h1 h2 ⊢
    omega

theorem sortLe_total (o : SortOrder) (f : String) (a b : ContentItem) :
    (sortLe o f a b || sortLe o f b a) = true := by
  rw [Bool.or_eq_true]
  cases o
  · rw [sortLe_asc_iff, sortLe_asc_iff]
    omega
  · rw [sortLe_desc_iff, sortLe_desc_iff]
    omega

theorem pairwise_of_mem_pair {α : Type} (R : α → α → Prop) (l : List α)
    (h : ∀ a ∈ l, ∀ b ∈ l, R a b) : l.Pairwise R := by
  induction l with
  | nil => exact List.Pairwise.nil
  | cons x xs ih =>
    refine List.Pairwise.cons (fun b hb => h x (by simp) b (by simp [hb])) ?_
    exact ih (fun a ha b hb => h a (by simp [ha]) b (by simp [hb]))

/-- C3: for every item sequence and every sort field, `sortBy(field,
'asc')` materializes the items in non-decreasing field order, the
omitted-direction default materializes them in non-increasing
(descending) field order, both results are permutations of the
snapshot, and the sort is stable: for either direction, the
subsequence of items with any fixed field value is exactly that
subsequence of the original sequence, in its original order. -/
theorem sortBy_spec (items : List ContentItem) (f : String) :
    ((ZenCollection.new items).sortBy f .asc).get.1.Pairwise
        (fun a b => a.fields f ≤ b.fields f)
    ∧ ((ZenCollection.new items).sortByDefault f).get.1.Pairwise
        (fun a b => b.fields f ≤ a.fields f)
    ∧ List.Perm ((ZenCollection.new items).sortBy f .asc).get.1 items
    ∧ List.Perm ((ZenCollection.new items).sortByDefault f).get.1 items
    ∧ (∀ (o : SortOrder) (v : Int),
        (((ZenCollection.new items).sortBy f o).get.1.filter (fun i => i.fields f = v))
          = items.filter (fun i => i.fields f = v)) := by
  have hget : ∀ o : SortOrder,
      ((ZenCollection.new items).sortBy f o).get.1 = items.mergeSort (sortLe o f) :=
    fun o => rfl
  have hgetd : ((ZenCollection.new items).sortByDefault f).get.1
      = items.mergeSort (sortLe .desc f) := rfl
  refine ⟨?_, ?_, ?_, ?_, ?_⟩
  · rw [hget .asc]
    exact (List.sorted_mergeSort
      (fun a b c' => sortLe_trans .asc f a b c')
      (fun a b => sortLe_total .asc f a b) items).imp
      (fun h => (sortLe_asc_iff f _ _).mp h)
  · rw [hgetd]
    exact (List.sorted_mergeSort
      (fun a b c' => sortLe_trans .desc f a b c')
      (fun a b => sortLe_total .desc f a b) items).imp
      (fun h => (sortLe_desc_iff f _ _).mp h)
  · rw [hget .asc]
    exact items.mergeSort_perm _
  · rw [hgetd]
    exact items.mergeSort_perm _
  · intro o v
    rw [hget o]
    have hmemv : ∀ a ∈ items.filter (fun i => i.fields f = v), a.fields f = v := by
      intro a ha
      have := (List.mem_filter.mp ha).2
      simpa using this
    have hpw : (items.filter (fun i => i.fields f = v)).Pairwise
        (fun a b => sortLe o f a b = true) := by
      apply pairwise_of_mem_pair
      intro a ha b hb
      have hav := hmemv a ha
      have hbv := hmemv b hb
      cases o
      · rw [sortLe_asc_iff]
        omega
      · rw [sortLe_desc_iff]
        omega
    have hsl : List.Sublist (items.filter (fun i => i.fields f = v))
        (items.mergeSort (sortLe o f)) :=
      List.sublist_mergeSort
        (fun a b c' => sortLe_trans o f a b c')
        (fun a b => sortLe_total o f a b)
        hpw (List.filter_sublist items)
    have hfs : (items.filter (fun i => i.fields f = v)).filter (fun i => i.fields f = v)
        = items.filter (fun i => i.fields f = v) :=
      List.filter_eq_self.mpr (fun a ha => (List.mem_filter.mp ha).2)
    have hsl2 : List.Sublist (items.filter (fun i => i.fields f = v))
        ((items.mergeSort (sortLe o f)).filter (fun i => i.fields f = v)) := by
      have := hsl.filter (fun i => decide (i.fields f = v))
      rwa [hfs] at this
    have hperm : List.Perm ((items.mergeSort (sortLe o f)).filter (fun i => i.fields f = v))
        (items.filter (fun i => i.fields f = v)) :=
      (items.mergeSort_perm (sortLe o f)).filter _
    exact (hsl2.eq_of_length hperm.length_eq.symm).symm

/-! ## URL helpers (src/content/hooks/useZenOrder.ts:249-271) -/

/-- `buildDocUrl` (useZenOrder.ts:252-257): `!docSlug` is true for an
absent slug and for the empty string; those and the literal `index`
produce the two-segment form. -/
def buildDocUrl (sectionSlug : String) (docSlug : Option String) : String :=
  match docSlug with
  | none => "/documentation/" ++ sectionSlug
  | some d =>
    if d = "" ∨ d = "index" then "/documentation/" ++ sectionSlug
    else "/documentation/" ++ sectionSlug ++ "/" ++ d

/-- Matching a literal string prefix (the anchored literal part of the
`parseDocUrl` regex): the remainder on success. -/
def dropPrefixList (pre l : List Char) : Option (List Char) :=
  match pre, l with
  | [], rest => some rest
  | _ :: _, [] => none
  | p :: ps, c :: cs => if c = p then dropPrefixList ps cs else none

/-- The capture part of the `parseDocUrl` regex, applied to the
remainder after the literal `/documentation/` prefix: the greedy
`[^/]+` groups cannot backtrack across `/`, so each capture is a
maximal run of non-`/` characters; both captured groups are non-empty
whenever they participate, so `match[1] || null` and
`match[2] || null` are the captures themselves. -/
def parseDocUrlSegs : Option (List Char) → Option String × Option String
  | none => (none, none)
  | some rest =>
    if (rest.takeWhile (fun c => c ≠ '/')).isEmpty then (none, none)
    else if (rest.dropWhile (fun c => c ≠ '/')).isEmpty then
      (some (rest.takeWhile (fun c => c ≠ '/')).asString, none)
    else if ((rest.dropWhile (fun c => c ≠ '/')).tail).isEmpty
        || ((rest.dropWhile (fun c => c ≠ '/')).tail).any (fun c => c = '/') then
      (none, none)
    else
      (some (rest.takeWhile (fun c => c ≠ '/')).asString,
        some ((rest.dropWhile (fun c => c ≠ '/')).tail).asString)

/-- `parseDocUrl` (useZenOrder.ts:262-271): the anchored regex
`^\/documentation\/([^/]+)(?:\/([^/]+))?$`, returning absent slugs on
a non-match. -/
def parseDocUrl (path : String) : Option String × Option String :=
  parseDocUrlSegs (dropPrefixList "/documentation/".data path.data)

/-- The path shape recognized by `parseDocUrl`'s regex:
`/documentation/` followed by one or two non-empty `/`-free
segments. -/
def docUrlShape (path : String) : Prop :=
  ∃ a : List Char, a ≠ [] ∧ (∀ c ∈ a, c ≠ '/') ∧
    (path.data = "/documentation/".data ++ a ∨
      ∃ b : List Char, b ≠ [] ∧ (∀ c ∈ b, c ≠ '/') ∧
        path.data = "/documentation/".data ++ a ++ '/' :: b)

theorem string_data_append (a b : String) : (a ++ b).data = a.data ++ b.data := rfl

theorem dropPrefixList_append (pre l : List Char) :
    dropPrefixList pre (pre ++ l) = some l := by
  induction pre with
  | nil => rfl
  | cons p ps ih => simp [dropPrefixList, ih]

theorem dropPrefixList_eq_append (pre : List Char) :
    ∀ l r, dropPrefixList pre l = some r → l = pre ++ r := by
  induction pre with
  | nil =>
    intro l r h
    simp [dropPrefixList] at h
    simp [h]
  | cons p ps ih =>
    intro l r h
    match l with
    | [] => simp [dropPrefixList] at h
    | c :: cs =>
      by_cases hc : c = p
      · subst hc
        simp only [dropPrefixList, if_pos rfl] at h
        simp [ih cs r h]
      · simp [dropPrefixList, hc] at h

theorem takeWhile_append_stop (p : Char → Bool) :
    ∀ (l1 : List Char) (c : Char) (l2 : List Char), (∀ x ∈ l1, p x = true) → p c = false →
      ((l1 ++ c :: l2).takeWhile p = l1 ∧ (l1 ++ c :: l2).dropWhile p = c :: l2) := by
  intro l1
  induction l1 with
  | nil =>
    intro c l2 _ hc
    simp [List.takeWhile_cons, List.dropWhile_cons, hc]
  | cons x xs ih =>
    intro c l2 hall hc
    have hx : p x = true := hall x (by simp)
    have := ih c l2 (fun y hy => hall y (by simp [hy])) hc
    simp [List.takeWhile_cons, List.dropWhile_cons, hx, this.1, this.2]

theorem takeWhile_all_eq (p : Char → Bool) :
    ∀ l : List Char, (∀ x ∈ l, p x = true) →
      (l.takeWhile p = l ∧ l.dropWhile p = []) := by
  intro l
  induction l with
  | nil => intro _; simp
  | cons x xs ih =>
    intro hall
    have hx : p x = true := hall x (by simp)
    have := ih (fun y hy => hall y (by simp [hy]))
    simp [List.takeWhile_cons, List.dropWhile_cons, hx, this.1, this.2]

theorem dropWhile_cons_head (p : Char → Bool) :
    ∀ (l : List Char) (c : Char) (r : List Char), l.dropWhile p = c :: r → p c = false := by
  intro l
  induction l with
  | nil => intro c r h; simp at h
  | cons x xs ih =>
    intro c r h
    by_cases hx : p x
    · rw [List.dropWhile_cons, if_pos hx] at h
      exact ih c r h
    · rw [List.dropWhile_cons, if_neg hx] at h
      cases h
      exact Bool.eq_false_iff.mpr hx

theorem string_eq_empty_iff (s : String) : s = "" ↔ s.data = [] := by
  rw [String.ext_iff]

/-- C5: `buildDocUrl` yields `/documentation/{section}` when the doc
slug is absent, empty or literally `index`, and
`/documentation/{section}/{doc}` otherwise; `parseDocUrl` is its
exact inverse on non-empty `/`-free slugs (doc not `index`), and on
any path not matching the two/three-segment `/documentation/...`
shape both returned slugs are absent. -/
theorem parseDocUrl_buildDocUrl_inverse :
    (∀ s : String, buildDocUrl s none = "/documentation/" ++ s
      ∧ buildDocUrl s (some "index") = "/documentation/" ++ s
      ∧ buildDocUrl s (some "") = "/documentation/" ++ s)
    ∧ (∀ s d : String, ¬d = "" → ¬d = "index" →
        buildDocUrl s (some d) = "/documentation/" ++ s ++ "/" ++ d)
    ∧ (∀ s d : String, ¬s = "" → (∀ c ∈ s.data, ¬c = '/') → ¬d = "" → ¬d = "index" →
        (∀ c ∈ d.data, ¬c = '/') →
        parseDocUrl (buildDocUrl s (some d)) = (some s, some d))
    ∧ (∀ s : String, ¬s = "" → (∀ c ∈ s.data, ¬c = '/') →
        parseDocUrl (buildDocUrl s none) = (some s, none))
    ∧ (∀ path : String, ¬docUrlShape path → parseDocUrl path = (none, none)) := by
  have hdata_ne : ∀ s : String, ¬s = "" → s.data ≠ [] := by
    intro s hs h
    exact hs ((string_eq_empty_iff s).mpr h)
  have hne_isEmpty : ∀ s : String, ¬s = "" → s.data.isEmpty = false := by
    intro s hs
    rw [List.isEmpty_eq_false_iff_exists_mem]
    match s.data, hdata_ne s hs with
    | c :: cs, _ => exact ⟨c, by simp⟩
  refine ⟨fun s => ⟨rfl, by simp [buildDocUrl], by simp [buildDocUrl]⟩,
    fun s d hd hdi => by simp [buildDocUrl, hd, hdi], ?_, ?_, ?_⟩
  · -- round trip on the three-segment form
    intro s d hs hsslash hd hdidx hdslash
    have hbuild : buildDocUrl s (some d) = "/documentation/" ++ s ++ "/" ++ d := by
      simp [buildDocUrl, hd, hdidx]
    rw [hbuild]
    unfold parseDocUrl
    have hdp : ("/documentation/" ++ s ++ "/" ++ d).data
        = "/documentation/".data ++ (s.data ++ '/' :: d.data) := by
      simp [string_data_append]
    rw [hdp, dropPrefixList_append]
    simp only [parseDocUrlSegs]
    have hps : ∀ x ∈ s.data, (fun c : Char => decide (c ≠ '/')) x = true := by
      intro x hx
      simp [hsslash x hx]
    have hsplit := takeWhile_append_stop (fun c : Char => decide (c ≠ '/'))
      s.data '/' d.data hps (by simp)
    rw [hsplit.1, hsplit.2, hne_isEmpty s hs]
    have hdany : d.data.any (fun c => c = '/') = false := by
      rw [Bool.eq_false_iff]
      intro hany
      obtain ⟨x, hx, hx2⟩ := List.any_eq_true.mp hany
      exact hdslash x hx (by simpa using hx2)
    simp [hne_isEmpty d hd, hdany]
    exact ⟨rfl, rfl⟩
  · -- round trip on the two-segment form
    intro s hs hsslash
    show parseDocUrl ("/documentation/" ++ s) = (some s, none)
    unfold parseDocUrl
    have hdp : ("/documentation/" ++ s).data = "/documentation/".data ++ s.data := rfl
    rw [hdp, dropPrefixList_append]
    simp only [parseDocUrlSegs]
    have hps : ∀ x ∈ s.data, (fun c : Char => decide (c ≠ '/')) x = true := by
      intro x hx
      simp [hsslash x hx]
    have hsplit := takeWhile_all_eq (fun c : Char => decide (c ≠ '/')) s.data hps
    rw [hsplit.1, hsplit.2, hne_isEmpty s hs]
    rfl
  · -- no other path shape parses
    intro path hshape
    by_contra hne
    apply hshape
    unfold parseDocUrl at hne
    rcases hpre : dropPrefixList "/documentation/".data path.data with - | rest <;>
      rw [hpre] at hne
    · exact absurd rfl hne
    · have hpath := dropPrefixList_eq_append _ _ _ hpre
      simp only [parseDocUrlSegs] at hne
      by_cases hemp : (rest.takeWhile (fun c : Char => decide (c ≠ '/'))).isEmpty
      · rw [if_pos hemp] at hne
        exact absurd rfl hne
      · rw [if_neg hemp] at hne
        rcases hdw : rest.dropWhile (fun c : Char => decide (c ≠ '/')) with - | ⟨c0, rest2⟩ <;>
          rw [hdw] at hne
        · -- single non-empty /-free segment
          have hall : ∀ x ∈ rest, (fun c : Char => decide (c ≠ '/')) x = true :=
            List.dropWhile_eq_nil_iff.mp hdw
          refine ⟨rest, ?_, ?_, Or.inl hpath⟩
          · intro h0
            subst h0
            simp at hemp
          · intro c hc
            simpa using hall c hc
        · -- two segments
          simp only [List.isEmpty_cons, List.tail_cons] at hne
          rw [if_neg (by simp)] at hne
          by_cases hbad : (rest2.isEmpty || rest2.any (fun c => c = '/')) = true
          · rw [if_pos hbad] at hne
            exact absurd rfl hne
          · rw [if_neg hbad] at hne
            rw [Bool.not_eq_true, Bool.or_eq_false_iff] at hbad
            have hc0 : c0 = '/' := by
              have := dropWhile_cons_head (fun c : Char => decide (c ≠ '/')) rest c0 rest2 hdw
              simpa using this
            subst hc0
            have htk := List.takeWhile_append_dropWhile
              (p := fun c : Char => decide (c ≠ '/')) (l := rest)
            refine ⟨rest.takeWhile (fun c : Char => decide (c ≠ '/')), ?_, ?_,
              Or.inr ⟨rest2, ?_, ?_, ?_⟩⟩
            · intro h0
              rw [h0] at hemp
              simp at hemp
            · intro c hc
              have := List.mem_takeWhile_imp hc
              simpa using this
            · intro h0
              rw [h0] at hbad
              simp at hbad
            · intro c hc hceq
              have : rest2.any (fun c => c = '/') = true :=
                List.any_eq_true.mpr ⟨c, hc, by simp [hceq]⟩
              rw [this] at hbad
              exact absurd hbad.2 (by simp)
            · rw [hpath]
              have hre : rest = rest.takeWhile (fun c : Char => decide (c ≠ '/')) ++ '/' :: rest2 := by
                conv_lhs => rw [← htk]
                rw [hdw]
              conv_lhs => rw [hre]
              exact (List.append_assoc _ _ _).symm

/-- C5 witness: `buildDocUrl('guide','index')` collapses to the
two-segment form; both round trips hold at `guide`/`setup`; and a
path outside the `/documentation/...` shape parses to two absent
slugs. -/
theorem parseDocUrl_buildDocUrl_inverse_witness :
    buildDocUrl "guide" (some "index") = "/documentation/" ++ "guide"
    ∧ parseDocUrl (buildDocUrl "guide" (some "setup")) = (some "guide", some "setup")
    ∧ parseDocUrl (buildDocUrl "guide" none) = (some "guide", none)
    ∧ parseDocUrl "/docs/x" = (none, none) := by
  have key : ∀ X : List Char, "/docs/x".data ≠ "/documentation/".data ++ X := by
    intro X hX
    have h4 := congrArg (fun l => l.get? 4) hX
    simp only at h4
    rw [List.get?_append (by decide)] at h4
    exact absurd h4 (by decide)
  refine ⟨(parseDocUrl_buildDocUrl_inverse.1 "guide").2.1,
    parseDocUrl_buildDocUrl_inverse.2.2.1 "guide" "setup"
      (by decide) (by decide) (by decide) (by decide) (by decide),
    parseDocUrl_buildDocUrl_inverse.2.2.2.1 "guide" (by decide) (by decide),
    parseDocUrl_buildDocUrl_inverse.2.2.2.2 "/docs/x" ?_⟩
  rintro ⟨a, hane, hslash, h | ⟨b, hbne, hbslash, h⟩⟩
  · exact key a h
  · exact key (a ++ '/' :: b) (by rw [h, List.append_assoc])

/-! ## Navigation: `getNextDoc` / `getPrevDoc` (useZenOrder.ts:200-236) -/

/-- A processed document item (useZenOrder.ts:16-20), reduced to the
fields the navigation helpers read: its own slug and its owning
section's slug. -/
structure DocItem where
  slug : String
  sectionSlug : String

/-- A processed section (useZenOrder.ts:22-29), reduced to the fields
the navigation helpers read: its slug and its ordered documents. -/
structure DocSection where
  slug : String
  items : List DocItem

/-- JS `Array.prototype.findIndex`: the first matching index, `-1` on
a miss. -/
def jsFindIndex {α : Type} (p : α → Bool) (l : List α) : Int :=
  match l.findIdx? p with
  | some n => n
  | none => -1

/-- JS `arr[i]` for an integer index: absent outside the range. -/
def jsIndex {α : Type} (l : List α) (i : Int) : Option α :=
  if i < 0 then none else l.get? i.toNat

/-- The body of `getNextDoc` (useZenOrder.ts:200-217) given the
looked-up current section (absent section short-circuits to absent). -/
def getNextDocAux (sections : List DocSection) (currentDoc : DocItem) :
    Option DocSection → Option DocItem
  | none => none
  | some currentSection =>
    if jsFindIndex (fun d => d.slug == currentDoc.slug) currentSection.items
        < (currentSection.items.length : Int) - 1 then
      jsIndex currentSection.items
        (jsFindIndex (fun d => d.slug == currentDoc.slug) currentSection.items + 1)
    else
      if jsFindIndex (fun s => s.slug == currentSection.slug) sections
          < (sections.length : Int) - 1 then
        match jsIndex sections
            (jsFindIndex (fun s => s.slug == currentSection.slug) sections + 1) with
        | some nextSection => nextSection.items.head?
        | none => none
      else none

/-- `getNextDoc` (useZenOrder.ts:200-217): the document after
`currentDoc` in its own section, else the first document of the next
section, else absent. -/
def getNextDoc (sections : List DocSection) (currentDoc : DocItem) : Option DocItem :=
  getNextDocAux sections currentDoc
    (sections.find? (fun s => s.slug == currentDoc.sectionSlug))

/-- The body of `getPrevDoc` (useZenOrder.ts:219-236) given the
looked-up current section. -/
def getPrevDocAux (sections : List DocSection) (currentDoc : DocItem) :
    Option DocSection → Option DocItem
  | none => none
  | some currentSection =>
    if 0 < jsFindIndex (fun d => d.slug == currentDoc.slug) currentSection.items then
      jsIndex currentSection.items
        (jsFindIndex (fun d => d.slug == currentDoc.slug) currentSection.items - 1)
    else
      if 0 < jsFindIndex (fun s => s.slug == currentSection.slug) sections then
        match jsIndex sections
            (jsFindIndex (fun s => s.slug == currentSection.slug) sections - 1) with
        | some prevSection => jsIndex prevSection.items ((prevSection.items.length : Int) - 1)
        | none => none
      else none

/-- `getPrevDoc` (useZenOrder.ts:219-236): the document before
`currentDoc` in its own section, else the last document of the
previous section, else absent. -/
def getPrevDoc (sections : List DocSection) (currentDoc : DocItem) : Option DocItem :=
  getPrevDocAux sections currentDoc
    (sections.find? (fun s => s.slug == currentDoc.sectionSlug))

/-- C8: for a document `D` that the index locates in its section
(hypotheses: the slug lookups of section and in-section index
succeed), `getNextDoc` returns the next same-section document when
`D` is not the section's last document, else the first document of
the next section in the sorted section list, else absent when the
section is the last; and symmetrically `getPrevDoc` returns the
previous same-section document, else the last document of the
previous section, else absent. -/
theorem getNextPrevDoc_spec (sections : List DocSection) (d : DocItem) (cur : DocSection)
    (i si : Nat)
    (hfind : sections.find? (fun s => s.slug == d.sectionSlug) = some cur)
    (hidx : cur.items.findIdx? (fun x => x.slug == d.slug) = some i)
    (hsi : sections.findIdx? (fun s => s.slug == cur.slug) = some si) :
    getNextDoc sections d
      = (if i + 1 < cur.items.length then cur.items.get? (i + 1)
         else if si + 1 < sections.length then
           (sections.get? (si + 1)).bind (fun ns => ns.items.head?)
         else none)
    ∧ getPrevDoc sections d
      = (if 0 < i then cur.items.get? (i - 1)
         else if 0 < si then
           (sections.get? (si - 1)).bind
             (fun ps => ps.items.get? (ps.items.length - 1))
         else none) := by
  have hilt : i < cur.items.length := (List.findIdx?_eq_some_iff_findIdx_eq.mp hidx).1
  have hsilt : si < sections.length := (List.findIdx?_eq_some_iff_findIdx_eq.mp hsi).1
  have hjfi : jsFindIndex (fun x => x.slug == d.slug) cur.items = (i : Int) := by
    simp [jsFindIndex, hidx]
  have hjfs : jsFindIndex (fun s => s.slug == cur.slug) sections = (si : Int) := by
    simp [jsFindIndex, hsi]
  constructor
  · unfold getNextDoc
    rw [hfind]
    simp only [getNextDocAux, hjfi, hjfs]
    by_cases h1 : i + 1 < cur.items.length
    · rw [if_pos (by omega : (i : Int) < (cur.items.length : Int) - 1), if_pos h1]
      have ht : ((i : Int) + 1).toNat = i + 1 := by omega
      simp [jsIndex, ht]
      omega
    · rw [if_neg (by omega : ¬(i : Int) < (cur.items.length : Int) - 1), if_neg h1]
      by_cases h2 : si + 1 < sections.length
      · rw [if_pos (by omega : (si : Int) < (sections.length : Int) - 1), if_pos h2]
        have ht : ((si : Int) + 1).toNat = si + 1 := by omega
        have hj : jsIndex sections ((si : Int) + 1) = sections.get? (si + 1) := by
          simp [jsIndex, ht]
          omega
        rw [hj]
        cases sections.get? (si + 1) <;> rfl
      · rw [if_neg (by omega : ¬(si : Int) < (sections.length : Int) - 1), if_neg h2]
  · unfold getPrevDoc
    rw [hfind]
    simp only [getPrevDocAux, hjfi, hjfs]
    by_cases h1 : 0 < i
    · rw [if_pos (by omega : (0 : Int) < (i : Int)), if_pos h1]
      have ht : ((i : Int) - 1).toNat = i - 1 := by omega
      simp [jsIndex, ht, show ¬(i : Int) - 1 < 0 by omega]
    · rw [if_neg (by omega : ¬(0 : Int) < (i : Int)), if_neg h1]
      by_cases h2 : 0 < si
      · rw [if_pos (by omega : (0 : Int) < (si : Int)), if_pos h2]
        have ht : ((si : Int) - 1).toNat = si - 1 := by omega
        have hj : jsIndex sections ((si : Int) - 1) = sections.get? (si - 1) := by
          simp [jsIndex, ht, show ¬(si : Int) - 1 < 0 by omega]
        rw [hj]
        have hlast : ∀ ps : DocSection,
            jsIndex ps.items ((ps.items.length : Int) - 1)
              = ps.items.get? (ps.items.length - 1) := by
          intro ps
          by_cases h0 : ps.items.length = 0
          · have hnil : ps.items = [] := List.length_eq_zero.mp h0
            simp [jsIndex, hnil]
          · have hn : ¬((ps.items.length : Int) - 1 < 0) := by omega
            have ht2 : ((ps.items.length : Int) - 1).toNat = ps.items.length - 1 := by omega
            simp [jsIndex, hn, ht2]
        cases hgs : sections.get? (si - 1) with
        | none => rfl
        | some ps =>
          show (match some ps with
            | some prevSection =>
              jsIndex prevSection.items ((prevSection.items.length : Int) - 1)
            | none => none) = _
          rw [show (match some ps with
            | some prevSection =>
              jsIndex prevSection.items ((prevSection.items.length : Int) - 1)
            | none => none) = jsIndex ps.items ((ps.items.length : Int) - 1) from rfl,
            hlast ps]
          rfl
      · rw [if_neg (by omega : ¬(0 : Int) < (si : Int)), if_neg h2]

/-- Concrete two-section, two-document navigation fixture. -/
def navSections : List DocSection :=
  [⟨"s1", [⟨"a", "s1"⟩, ⟨"b", "s1"⟩]⟩, ⟨"s2", [⟨"c", "s2"⟩, ⟨"d", "s2"⟩]⟩]

/-- C8 witness: on two sections of two documents each, the next
document after section 1's last document is section 2's first, the
next document after the last document of the last section is absent,
and the previous document of section 2's first document is section
1's last. -/
theorem getNextPrevDoc_spec_witness :
    getNextDoc navSections ⟨"b", "s1"⟩ = some ⟨"c", "s2"⟩
    ∧ getNextDoc navSections ⟨"d", "s2"⟩ = none
    ∧ getPrevDoc navSections ⟨"c", "s2"⟩ = some ⟨"b", "s1"⟩ := by
  have h1 := getNextPrevDoc_spec navSections ⟨"b", "s1"⟩ ⟨"s1", [⟨"a", "s1"⟩, ⟨"b", "s1"⟩]⟩
    1 0 (by rfl) (by rfl) (by rfl)
  have h2 := getNextPrevDoc_spec navSections ⟨"d", "s2"⟩ ⟨"s2", [⟨"c", "s2"⟩, ⟨"d", "s2"⟩]⟩
    1 1 (by rfl) (by rfl) (by rfl)
  have h3 := getNextPrevDoc_spec navSections ⟨"c", "s2"⟩ ⟨"s2", [⟨"c", "s2"⟩, ⟨"d", "s2"⟩]⟩
    0 1 (by rfl) (by rfl) (by rfl)
  exact ⟨h1.1.trans (by rfl), h2.1.trans (by rfl), h3.2.trans (by rfl)⟩
